import Mathlib

/-!
# golfC minifier: symbol allocator and scope tracker

A shallow embedding of `src/minifier.cpp`: the reserved-word table `keywords`,
the allocator `toSymbol`, and the class `StateManager` with `adjustScopes`,
`addSymbol`, `getSymbol`, `pushEmptyScope` and `pushCurScope`.

Conventions of the embedding.

* Symbol numbers (`int` in the source) are natural numbers: every number the
  program hands to `toSymbol` is a counter that starts at `0` and only grows.
  Signed overflow is undefined in C++, so the embedding describes the runs in
  which no counter leaves the range of `int`.
* On natural numbers the statement pair `i /= 52; i -= 1;` followed by the test
  `i >= 0` is the test `i / 52 = 0` (the loop stops) or the continuation with
  `i / 52 - 1`.
* Both loops of `toSymbol` are run with fuel; a loop that runs out of fuel
  yields `none`.  Theorems below show that the fuel given is always enough.
* A `SourceLocation` is its raw encoding, a natural number, compared with `>`.
* `vector<Scope> scopes` is a list whose HEAD is `scopes.back()` (the innermost
  scope); the last element of the list is the file-level scope.
* `scopes.back()` on an empty vector is undefined behaviour: the embedding
  yields `none` there.
* `map<Decl *, int> declarations` is an association list with one entry per key.
-/

namespace Minifier

/-! ## Reserved words and the allocator -/

/-- The reserved words, `const set<string> keywords` (`"auto"` is commented out
in the source). -/
def keywords : List String :=
  ["break", "case", "char", "const", "continue", "default", "do", "double",
   "else", "enum", "extern", "float", "for", "goto", "if", "inline", "int",
   "long", "register", "restrict", "return", "short", "signed", "sizeof",
   "static", "struct", "switch", "typedef", "union", "unsigned", "void",
   "volatile", "while", "_Bool", "_Complex", "_Imaginary"]

/-- The character pushed for digit `tmp`: `'a' + tmp` below 26, else
`'A' + tmp - 26`. -/
def toLetter (tmp : Nat) : Char :=
  if tmp < 26 then Char.ofNat ('a'.toNat + tmp) else Char.ofNat ('A'.toNat + tmp - 26)

/-- The inner loop `while (i >= 0)` of `toSymbol`, pushing one letter per round
onto `resultArr`. -/
def whileLoop : Nat → Nat → List Char → Option (List Char)
  | 0, _, _ => none
  | fuel + 1, i, resultArr =>
    let tmp := i % 52
    let resultArr := resultArr ++ [toLetter tmp]
    if i / 52 = 0 then some resultArr
    else whileLoop fuel (i / 52 - 1) resultArr

/-- The outer `do ... while (keywords.find(result) != keywords.end())` loop of
`toSymbol`, started at `curNum`. -/
def doWhileLoop : Nat → Nat → Option (Nat × String)
  | 0, _ => none
  | fuel + 1, curNum =>
    match whileLoop (curNum + 1) curNum [] with
    | none => none
    | some resultArr =>
      let result := String.mk resultArr.reverse
      if result ∈ keywords then doWhileLoop fuel (curNum + 1)
      else some (curNum + 1, result)

/-- The allocator `pair<int, string> toSymbol(int i)`: the pair
`(nextNumber, identifier)`. -/
def toSymbol (i : Nat) : Option (Nat × String) :=
  doWhileLoop (keywords.length + 1) i

/-! ## Scopes and the state manager -/

/-- The source's `struct Scope`: where the scope ends (inclusive) and the next
unused symbol number (`maxUsedSymbol`, exclusive). -/
structure Scope where
  endLoc : Nat
  maxUsedSymbol : Nat
  deriving DecidableEq

/-- What the tracker reads of a `Decl *`: `getLocation()` and
`getCanonicalDecl()`. -/
structure Decl where
  location : Nat
  canonicalDecl : Nat
  deriving DecidableEq

/-- The members `scopes` and `declarations` of `class StateManager`. -/
structure StateManager where
  scopes : List Scope
  declarations : List (Nat × Nat)
  deriving DecidableEq

/-- Lookup in the map, `declarations.find(key)`; `none` stands for `end()`. -/
def mapFind : List (Nat × Nat) → Nat → Option Nat
  | [], _ => none
  | (k, v) :: rest, key => if k = key then some v else mapFind rest key

/-- The assignment `declarations[key] = value`: the entry of `key` is created,
or replaced when there is one. -/
def mapAssign (decls : List (Nat × Nat)) (key value : Nat) : List (Nat × Nat) :=
  (key, value) :: decls.filter (fun e => e.1 ≠ key)

/-- Reading `declarations[key]`: the stored value, or a new entry with value `0`
when the key is absent. -/
def mapSubscript (decls : List (Nat × Nat)) (key : Nat) : Nat × List (Nat × Nat) :=
  match mapFind decls key with
  | some v => (v, decls)
  | none => (0, (key, 0) :: decls)

/-- The loop `while (cur > scopes.back().end) scopes.pop_back();`. -/
def adjustScopes : List Scope → Nat → Option (List Scope)
  | [], _ => none
  | top :: rest, cur =>
    if cur > top.endLoc then adjustScopes rest cur else some (top :: rest)

/-- The constructor: one global scope that ends at the end of the main file. -/
def StateManager.init (endOfFile : Nat) : StateManager :=
  { scopes := [{ endLoc := endOfFile, maxUsedSymbol := 0 }], declarations := [] }

/-- The method `string addSymbol(Decl *decl)`: the returned string and the new
state. -/
def addSymbol (m : StateManager) (decl : Decl) : Option (String × StateManager) :=
  match adjustScopes m.scopes decl.location with
  | none => none
  | some [] => none
  | some (top :: rest) =>
    let symbolNum := top.maxUsedSymbol
    match toSymbol symbolNum with
    | none => none
    | some (nextSymbolNum, str) =>
      some (str,
        { scopes := { top with maxUsedSymbol := nextSymbolNum } :: rest,
          declarations := mapAssign m.declarations decl.canonicalDecl symbolNum })

/-- The method `string getSymbol(Decl *decl, string original)`: the returned
string and the state afterwards. -/
def getSymbol (m : StateManager) (decl : Decl) (original : String) :
    Option (String × StateManager) :=
  if mapFind m.declarations decl.canonicalDecl = none then some (original, m)
  else
    let r := mapSubscript m.declarations decl.canonicalDecl
    match toSymbol r.1 with
    | none => none
    | some (_, str) => some (str, { m with declarations := r.2 })

/-- The method `void pushEmptyScope(SourceLocation end)`. -/
def pushEmptyScope (m : StateManager) (e : Nat) : Option StateManager :=
  match adjustScopes m.scopes e with
  | none => none
  | some scopes => some { m with scopes := { endLoc := e, maxUsedSymbol := 0 } :: scopes }

/-- The method `void pushCurScope(SourceLocation end)`. -/
def pushCurScope (m : StateManager) (e : Nat) : Option StateManager :=
  match adjustScopes m.scopes e with
  | none => none
  | some [] => none
  | some (top :: rest) =>
    some { m with scopes := { endLoc := e, maxUsedSymbol := top.maxUsedSymbol } :: top :: rest }

/-- A call the visitor makes on the tracker that changes its state. -/
inductive Op where
  | add (decl : Decl)
  | pushEmpty (e : Nat)
  | pushCur (e : Nat)
  deriving DecidableEq

/-- The source position an operation hands to `adjustScopes`. -/
def Op.position : Op → Nat
  | .add decl => decl.location
  | .pushEmpty e => e
  | .pushCur e => e

/-- One call on the tracker. -/
def step (m : StateManager) : Op → Option StateManager
  | .add decl => (addSymbol m decl).map (fun r => r.2)
  | .pushEmpty e => pushEmptyScope m e
  | .pushCur e => pushCurScope m e

/-- A sequence of calls, in order. -/
def run : StateManager → List Op → Option StateManager
  | m, [] => some m
  | m, op :: ops =>
    match step m op with
    | none => none
    | some m1 => run m1 ops

/-- The end boundary of the file-level scope, the last element of the list
(`0` for an empty stack). -/
def bottomEnd (scopes : List Scope) : Nat :=
  match scopes.getLast? with
  | some s => s.endLoc
  | none => 0

/-! ## Functions used to state and prove the properties -/

/-- The end boundaries do not increase from the bottom of the stack to its top:
every scope ends at or before each scope beneath it. -/
def endsOrdered (scopes : List Scope) : Prop :=
  scopes.Pairwise (fun inner outer => inner.endLoc ≤ outer.endLoc)

/-- No scope is popped along a run: every operation is made at a position at or
before the end of the scope that is on top at that moment. -/
def noScopePopped : StateManager → List Op → Bool
  | _, [] => true
  | m, op :: ops =>
    match m.scopes, step m op with
    | top :: _, some m1 => decide (op.position ≤ top.endLoc) && noScopePopped m1 ops
    | _, _ => false

/-- The letters the inner loop of `toSymbol` pushes for `i`, least significant
first, written without fuel. -/
def digitsOf (i : Nat) : List Char :=
  if i / 52 = 0 then [toLetter (i % 52)]
  else toLetter (i % 52) :: digitsOf (i / 52 - 1)
termination_by i
decreasing_by omega

/-- The string `toSymbol` builds for the number `i` before it looks at the
reserved words. -/
def render (i : Nat) : String :=
  String.mk (digitsOf i).reverse

/-- The digit a letter stands for: `a..z` are `0..25`, `A..Z` are `26..51`. -/
def letterDigit (c : Char) : Nat :=
  if 'a'.toNat ≤ c.toNat then c.toNat - 'a'.toNat else c.toNat - 'A'.toNat + 26

/-- The number after the one a list of letters (least significant first)
stands for; the inverse of `digitsOf`, shifted by one. -/
def symbolValue : List Char → Nat
  | [] => 0
  | c :: rest => letterDigit c + 1 + 52 * symbolValue rest

/-- The number whose rendering a string of letters is. -/
def symbolNumber (s : String) : Nat :=
  symbolValue s.data.reverse - 1

/-! ## The allocator -/

theorem letterDigit_toLetter : ∀ d, d < 52 → letterDigit (toLetter d) = d := by
  decide

theorem digitsOf_small (i : Nat) (h : i / 52 = 0) : digitsOf i = [toLetter (i % 52)] := by
  rw [digitsOf, if_pos h]

theorem digitsOf_large (i : Nat) (h : ¬ i / 52 = 0) :
    digitsOf i = toLetter (i % 52) :: digitsOf (i / 52 - 1) := by
  rw [digitsOf, if_neg h]

theorem whileLoop_eq (fuel : Nat) : ∀ (i : Nat) (acc : List Char), i < fuel →
    whileLoop fuel i acc = some (acc ++ digitsOf i) := by
  induction fuel with
  | zero => intro i acc h; omega
  | succ fuel ih =>
    intro i acc h
    by_cases h0 : i / 52 = 0
    · simp [whileLoop, h0, digitsOf_small]
    · have hlt : i / 52 - 1 < fuel := by omega
      simp [whileLoop, h0, digitsOf_large, ih _ _ hlt]

theorem symbolValue_digitsOf (i : Nat) : symbolValue (digitsOf i) = i + 1 := by
  induction i using Nat.strong_induction_on with
  | _ i ih =>
    have hd : letterDigit (toLetter (i % 52)) = i % 52 :=
      letterDigit_toLetter _ (Nat.mod_lt _ (by decide))
    by_cases h0 : i / 52 = 0
    · rw [digitsOf_small i h0]
      simp only [symbolValue, hd]
      omega
    · rw [digitsOf_large i h0]
      have hlt : i / 52 - 1 < i := by omega
      simp only [symbolValue, hd, ih _ hlt]
      omega

theorem digitsOf_injective (i j : Nat) (h : digitsOf i = digitsOf j) : i = j := by
  have hi := symbolValue_digitsOf i
  have hj := symbolValue_digitsOf j
  rw [h] at hi
  omega

theorem render_injective (i j : Nat) (h : render i = render j) : i = j := by
  apply digitsOf_injective
  have h2 : (digitsOf i).reverse = (digitsOf j).reverse :=
    congrArg String.data h
  exact List.reverse_injective h2

theorem render_length (i : Nat) : (render i).length = (digitsOf i).length := by
  simp [render, String.length]

theorem digitsOf_length_mono (j : Nat) : ∀ i, i ≤ j →
    (digitsOf i).length ≤ (digitsOf j).length := by
  induction j using Nat.strong_induction_on with
  | _ j ih =>
    intro i hij
    by_cases hj : j / 52 = 0
    · have hi : i / 52 = 0 := by omega
      rw [digitsOf_small i hi, digitsOf_small j hj]
      simp
    · by_cases hi : i / 52 = 0
      · rw [digitsOf_small i hi, digitsOf_large j hj]
        simp
      · rw [digitsOf_large i hi, digitsOf_large j hj]
        have hlt : j / 52 - 1 < j := by omega
        have hle : i / 52 - 1 ≤ j / 52 - 1 := by omega
        have := ih _ hlt _ hle
        simpa using this

theorem doWhileLoop_succ (fuel curNum : Nat) :
    doWhileLoop (fuel + 1) curNum =
      if render curNum ∈ keywords then doWhileLoop fuel (curNum + 1)
      else some (curNum + 1, render curNum) := by
  simp [doWhileLoop, whileLoop_eq (curNum + 1) curNum [] (Nat.lt_succ_self _), render]

theorem symbolNumber_render (i : Nat) : symbolNumber (render i) = i := by
  simp [symbolNumber, render, symbolValue_digitsOf]

theorem keyword_successor_free :
    ∀ kw ∈ keywords, (doWhileLoop 1 (symbolNumber kw + 1)).isSome = true := by
  decide

theorem render_succ_not_keyword (i : Nat) (h : render i ∈ keywords) :
    render (i + 1) ∉ keywords := by
  have h1 := keyword_successor_free (render i) h
  rw [symbolNumber_render, doWhileLoop_succ] at h1
  intro h2
  rw [if_pos h2] at h1
  simp [doWhileLoop] at h1

theorem doWhileLoop_eq (fuel i : Nat) :
    doWhileLoop (fuel + 2) i =
      if render i ∈ keywords then some (i + 2, render (i + 1)) else some (i + 1, render i) := by
  rw [doWhileLoop_succ]
  by_cases h : render i ∈ keywords
  · rw [if_pos h, if_pos h, doWhileLoop_succ, if_neg (render_succ_not_keyword i h)]
  · rw [if_neg h, if_neg h]

theorem toSymbol_eq (i : Nat) :
    toSymbol i =
      if render i ∈ keywords then some (i + 2, render (i + 1)) else some (i + 1, render i) :=
  doWhileLoop_eq 35 i

theorem toSymbol_spec (i : Nat) :
    ∃ k, i ≤ k ∧ k ≤ i + 1 ∧ toSymbol i = some (k + 1, render k) ∧ render k ∉ keywords := by
  by_cases h : render i ∈ keywords
  · exact ⟨i + 1, by omega, by omega, by rw [toSymbol_eq, if_pos h],
      render_succ_not_keyword i h⟩
  · exact ⟨i, by omega, by omega, by rw [toSymbol_eq, if_neg h], h⟩

/-! ## The scope stack -/

theorem adjustScopes_keep (top : Scope) (rest : List Scope) (cur : Nat)
    (h : cur ≤ top.endLoc) : adjustScopes (top :: rest) cur = some (top :: rest) := by
  simp [adjustScopes, Nat.not_lt.mpr h]

theorem adjustScopes_result (scopes : List Scope) (cur : Nat) :
    ∀ result, adjustScopes scopes cur = some result →
      ∃ top rest, result = top :: rest ∧ cur ≤ top.endLoc ∧ result <:+ scopes := by
  induction scopes with
  | nil => intro result h; simp [adjustScopes] at h
  | cons top rest ih =>
    intro result h
    by_cases hc : cur > top.endLoc
    · simp only [adjustScopes, if_pos hc] at h
      obtain ⟨t, r, h1, h2, h3⟩ := ih result h
      exact ⟨t, r, h1, h2, h3.trans (List.suffix_cons top rest)⟩
    · simp only [adjustScopes, if_neg hc] at h
      cases h
      exact ⟨top, rest, rfl, by omega, List.suffix_refl _⟩

theorem adjustScopes_defined (scopes : List Scope) (cur : Nat)
    (h : ∃ s ∈ scopes, cur ≤ s.endLoc) :
    ∃ result, adjustScopes scopes cur = some result ∧ result ≠ [] ∧
      result.getLast? = scopes.getLast? := by
  induction scopes with
  | nil => simp at h
  | cons top rest ih =>
    by_cases hc : cur > top.endLoc
    · have h2 : ∃ s ∈ rest, cur ≤ s.endLoc := by
        obtain ⟨s, hs, hle⟩ := h
        rcases List.mem_cons.mp hs with rfl | hs
        · omega
        · exact ⟨s, hs, hle⟩
      obtain ⟨result, h3, h4, h5⟩ := ih h2
      refine ⟨result, by simp [adjustScopes, hc, h3], h4, ?_⟩
      rw [h5]
      cases rest with
      | nil => simp at h2
      | cons a b => simp [List.getLast?_cons_cons]
    · exact ⟨top :: rest, by simp [adjustScopes, hc], by simp, rfl⟩

theorem bottomEnd_mem (scopes : List Scope) (h : scopes ≠ []) :
    ∃ s ∈ scopes, s.endLoc = bottomEnd scopes := by
  refine ⟨scopes.getLast h, List.getLast_mem h, ?_⟩
  simp [bottomEnd, List.getLast?_eq_getLast _ h]

theorem adjustScopes_of_le_bottom (scopes : List Scope) (cur : Nat) (h : scopes ≠ [])
    (hc : cur ≤ bottomEnd scopes) :
    ∃ top rest, adjustScopes scopes cur = some (top :: rest) ∧ cur ≤ top.endLoc ∧
      (top :: rest) <:+ scopes ∧ bottomEnd (top :: rest) = bottomEnd scopes := by
  obtain ⟨s, hs, he⟩ := bottomEnd_mem scopes h
  obtain ⟨result, h1, _, h3⟩ := adjustScopes_defined scopes cur ⟨s, hs, by omega⟩
  obtain ⟨top, rest, h4, h5, h6⟩ := adjustScopes_result scopes cur result h1
  subst h4
  exact ⟨top, rest, h1, h5, h6, by simp only [bottomEnd, h3]⟩

/-! ## The map of declarations -/

theorem mapFind_filter_ne (decls : List (Nat × Nat)) (key other : Nat) (h : other ≠ key) :
    mapFind (decls.filter (fun e => e.1 ≠ key)) other = mapFind decls other := by
  induction decls with
  | nil => rfl
  | cons e rest ih =>
    obtain ⟨k, v⟩ := e
    by_cases hk : k = key
    · have hko : ¬ k = other := by omega
      rw [List.filter_cons_of_neg (by simp [hk]), ih]
      simp only [mapFind, if_neg hko]
    · rw [List.filter_cons_of_pos (by simp [hk])]
      simp only [mapFind, ih]

theorem mapFind_mapAssign_same (decls : List (Nat × Nat)) (key value : Nat) :
    mapFind (mapAssign decls key value) key = some value := by
  simp [mapAssign, mapFind]

theorem mapFind_mapAssign_ne (decls : List (Nat × Nat)) (key value other : Nat)
    (h : other ≠ key) :
    mapFind (mapAssign decls key value) other = mapFind decls other := by
  have hk : ¬ key = other := fun e => h e.symm
  simp only [mapAssign, mapFind, if_neg hk]
  exact mapFind_filter_ne decls key other h

theorem mapAssign_entries (decls : List (Nat × Nat)) (key value : Nat) :
    (mapAssign decls key value).filter (fun e => e.1 = key) = [(key, value)] := by
  simp [mapAssign, List.filter_filter]

/-! ## Single operations of the tracker -/

theorem addSymbol_spec (m : StateManager) (decl : Decl) (name : String) (m1 : StateManager)
    (h : addSymbol m decl = some (name, m1)) :
    ∃ top rest k, adjustScopes m.scopes decl.location = some (top :: rest) ∧
      top.maxUsedSymbol ≤ k ∧ toSymbol top.maxUsedSymbol = some (k + 1, render k) ∧
      name = render k ∧
      m1 = { scopes := { top with maxUsedSymbol := k + 1 } :: rest,
             declarations := mapAssign m.declarations decl.canonicalDecl top.maxUsedSymbol } := by
  unfold addSymbol at h
  split at h
  · simp at h
  · simp at h
  · rename_i top rest hadj
    obtain ⟨k, hk1, _, hk3, _⟩ := toSymbol_spec top.maxUsedSymbol
    simp only [hk3] at h
    simp only [Option.some.injEq, Prod.mk.injEq] at h
    exact ⟨top, rest, k, hadj, hk1, hk3, h.1.symm, h.2.symm⟩

theorem addSymbol_on_top (m : StateManager) (decl : Decl) (top : Scope) (rest : List Scope)
    (next : Nat) (name : String) (hs : m.scopes = top :: rest)
    (hloc : decl.location ≤ top.endLoc)
    (hsym : toSymbol top.maxUsedSymbol = some (next, name)) :
    addSymbol m decl = some (name,
      { scopes := { top with maxUsedSymbol := next } :: rest,
        declarations := mapAssign m.declarations decl.canonicalDecl top.maxUsedSymbol }) := by
  simp only [addSymbol, hs]
  rw [adjustScopes_keep _ _ _ hloc]
  simp only [hsym]

theorem getSymbol_found (m : StateManager) (decl : Decl) (original : String) (idx k : Nat)
    (hfind : mapFind m.declarations decl.canonicalDecl = some idx)
    (hsym : toSymbol idx = some (k + 1, render k)) :
    getSymbol m decl original = some (render k, m) := by
  simp [getSymbol, hfind, mapSubscript, hsym]

/-! ## Runs of the tracker -/

theorem step_declarations (m m1 : StateManager) (op : Op) (key : Nat)
    (h : step m op = some m1) (hkey : ∀ d, op = Op.add d → d.canonicalDecl ≠ key) :
    mapFind m1.declarations key = mapFind m.declarations key := by
  cases op with
  | add decl =>
    simp only [step, Option.map_eq_some'] at h
    obtain ⟨⟨name, m1'⟩, h1, h2⟩ := h
    simp only at h2
    subst h2
    obtain ⟨top, rest, k, _, _, _, _, h3⟩ := addSymbol_spec m decl name m1' h1
    rw [h3]
    exact mapFind_mapAssign_ne _ _ _ _ (fun e => hkey decl rfl e.symm)
  | pushEmpty e =>
    simp only [step, pushEmptyScope] at h
    split at h
    · simp at h
    · cases h; rfl
  | pushCur e =>
    simp only [step, pushCurScope] at h
    split at h
    · simp at h
    · simp at h
    · cases h; rfl

theorem run_cons (m m2 : StateManager) (op : Op) (ops : List Op)
    (h : run m (op :: ops) = some m2) :
    ∃ m1, step m op = some m1 ∧ run m1 ops = some m2 := by
  simp only [run] at h
  split at h
  · simp at h
  · rename_i m1 h1
    exact ⟨m1, h1, h⟩

theorem run_declarations (ops : List Op) : ∀ (m m2 : StateManager) (key : Nat),
    run m ops = some m2 → (∀ d, Op.add d ∈ ops → d.canonicalDecl ≠ key) →
    mapFind m2.declarations key = mapFind m.declarations key := by
  induction ops with
  | nil =>
    intro m m2 key h _
    simp only [run, Option.some.injEq] at h
    rw [h]
  | cons op ops ih =>
    intro m m2 key h hkey
    obtain ⟨m1, h1, h2⟩ := run_cons m m2 op ops h
    rw [ih m1 m2 key h2 (fun d hd => hkey d (List.mem_cons_of_mem _ hd))]
    exact step_declarations m m1 op key h1
      (fun d hd => hkey d (by rw [hd]; exact List.mem_cons_self _ _))

theorem step_keeps_entry (m m1 : StateManager) (op : Op) (key : Nat)
    (h : step m op = some m1) (hkey : mapFind m.declarations key ≠ none) :
    mapFind m1.declarations key ≠ none := by
  by_cases hop : ∀ d, op = Op.add d → d.canonicalDecl ≠ key
  · rw [step_declarations m m1 op key h hop]
    exact hkey
  · have hop2 : ∃ d, op = Op.add d ∧ d.canonicalDecl = key := by
      by_contra hc
      exact hop (fun d hd he => hc ⟨d, hd, he⟩)
    obtain ⟨d, hd, he⟩ := hop2
    subst hd
    simp only [step, Option.map_eq_some'] at h
    obtain ⟨⟨name, m1'⟩, h1, h2⟩ := h
    simp only at h2
    subst h2
    obtain ⟨top, rest, k, _, _, _, _, h3⟩ := addSymbol_spec m d name m1' h1
    rw [h3, ← he]
    simp [mapFind_mapAssign_same]

theorem run_keeps_entry (ops : List Op) : ∀ (m m2 : StateManager) (key : Nat),
    run m ops = some m2 → mapFind m.declarations key ≠ none →
    mapFind m2.declarations key ≠ none := by
  induction ops with
  | nil =>
    intro m m2 key h hkey
    simp only [run, Option.some.injEq] at h
    rw [← h]
    exact hkey
  | cons op ops ih =>
    intro m m2 key h hkey
    obtain ⟨m1, h1, h2⟩ := run_cons m m2 op ops h
    exact ih m1 m2 key h2 (step_keeps_entry m m1 op key h1 hkey)

theorem bottomEnd_cons_cons (a b : Scope) (rest : List Scope) :
    bottomEnd (a :: b :: rest) = bottomEnd (b :: rest) := by
  simp [bottomEnd, List.getLast?_cons_cons]

theorem bottomEnd_replace_top (a b : Scope) (rest : List Scope) (h : a.endLoc = b.endLoc) :
    bottomEnd (a :: rest) = bottomEnd (b :: rest) := by
  cases rest with
  | nil => simp [bottomEnd, h]
  | cons c rest => rw [bottomEnd_cons_cons, bottomEnd_cons_cons]

theorem endsOrdered_push (e : Nat) (c : Nat) (top : Scope) (rest : List Scope)
    (h : endsOrdered (top :: rest)) (he : e ≤ top.endLoc) :
    endsOrdered (⟨e, c⟩ :: top :: rest) := by
  unfold endsOrdered at *
  refine List.pairwise_cons.mpr ⟨?_, h⟩
  intro s hs
  rcases List.mem_cons.mp hs with rfl | hs
  · exact he
  · have := (List.pairwise_cons.mp h).1 s hs
    simp only at this ⊢
    omega

theorem step_ordered (m : StateManager) (op : Op) (hne : m.scopes ≠ [])
    (hord : endsOrdered m.scopes) (hpos : op.position ≤ bottomEnd m.scopes) :
    ∃ m1, step m op = some m1 ∧ m1.scopes ≠ [] ∧ endsOrdered m1.scopes ∧
      bottomEnd m1.scopes = bottomEnd m.scopes := by
  obtain ⟨top, rest, h1, h2, h3, h4⟩ :=
    adjustScopes_of_le_bottom m.scopes op.position hne hpos
  have hord2 : endsOrdered (top :: rest) := List.Pairwise.sublist h3.sublist hord
  cases op with
  | add decl =>
    simp only [Op.position] at h1
    obtain ⟨k, _, _, hk, _⟩ := toSymbol_spec top.maxUsedSymbol
    refine ⟨_, by simp only [step, addSymbol, h1, hk]; rfl, by simp, ?_, ?_⟩
    · unfold endsOrdered at *
      exact List.pairwise_cons.mpr ⟨(List.pairwise_cons.mp hord2).1, (List.pairwise_cons.mp hord2).2⟩
    · rw [← h4]
      exact bottomEnd_replace_top _ _ _ rfl
  | pushEmpty e =>
    simp only [Op.position] at h1 h2
    refine ⟨_, by simp only [step, pushEmptyScope, h1]; rfl, by simp, ?_, ?_⟩
    · exact endsOrdered_push e 0 top rest hord2 h2
    · rw [← h4]
      exact bottomEnd_cons_cons _ _ _
  | pushCur e =>
    simp only [Op.position] at h1 h2
    refine ⟨_, by simp only [step, pushCurScope, h1]; rfl, by simp, ?_, ?_⟩
    · exact endsOrdered_push e _ top rest hord2 h2
    · rw [← h4]
      exact bottomEnd_cons_cons _ _ _

theorem run_ordered (ops : List Op) : ∀ (m : StateManager), m.scopes ≠ [] →
    endsOrdered m.scopes → (∀ op ∈ ops, op.position ≤ bottomEnd m.scopes) →
    ∃ m2, run m ops = some m2 ∧ m2.scopes ≠ [] ∧ endsOrdered m2.scopes ∧
      bottomEnd m2.scopes = bottomEnd m.scopes := by
  induction ops with
  | nil => intro m hne hord _; exact ⟨m, rfl, hne, hord, rfl⟩
  | cons op ops ih =>
    intro m hne hord hpos
    obtain ⟨m1, h1, h2, h3, h4⟩ :=
      step_ordered m op hne hord (hpos op (List.mem_cons_self _ _))
    obtain ⟨m2, h5, h6, h7, h8⟩ := ih m1 h2 h3
      (fun o ho => by rw [h4]; exact hpos o (List.mem_cons_of_mem _ ho))
    exact ⟨m2, by simp only [run, h1, h5], h6, h7, h8.trans h4⟩

theorem noScopePopped_cons (m : StateManager) (op : Op) (ops : List Op)
    (h : noScopePopped m (op :: ops) = true) :
    ∃ top rest m1, m.scopes = top :: rest ∧ step m op = some m1 ∧
      op.position ≤ top.endLoc ∧ noScopePopped m1 ops = true := by
  simp only [noScopePopped] at h
  split at h
  · rename_i top rest m1 hs hstep
    simp only [Bool.and_eq_true, decide_eq_true_eq] at h
    exact ⟨top, rest, m1, hs, hstep, h.1, h.2⟩
  · simp at h

theorem step_inherit (N : Nat) (m m1 : StateManager) (op : Op) (top : Scope)
    (rest : List Scope) (hs : m.scopes = top :: rest) (hN : N ≤ top.maxUsedSymbol)
    (hpos : op.position ≤ top.endLoc) (hstep : step m op = some m1)
    (hkind : ∀ e, op ≠ Op.pushEmpty e) :
    (∃ top1 rest1, m1.scopes = top1 :: rest1 ∧ N ≤ top1.maxUsedSymbol) ∧
    ∀ d, op = Op.add d →
      ∃ v, N ≤ v ∧ mapFind m1.declarations d.canonicalDecl = some v := by
  cases op with
  | add decl =>
    simp only [Op.position] at hpos
    obtain ⟨k, hk1, _, hk3, _⟩ := toSymbol_spec top.maxUsedSymbol
    have hadd := addSymbol_on_top m decl top rest (k + 1) (render k) hs hpos hk3
    simp only [step, hadd, Option.map_some', Option.some.injEq] at hstep
    subst hstep
    refine ⟨⟨_, rest, rfl, by simp only; omega⟩, ?_⟩
    intro d hd
    cases hd
    exact ⟨top.maxUsedSymbol, hN, mapFind_mapAssign_same _ _ _⟩
  | pushEmpty e => exact absurd rfl (hkind e)
  | pushCur e =>
    simp only [Op.position] at hpos
    simp only [step, pushCurScope, hs, adjustScopes_keep top rest e hpos,
      Option.some.injEq] at hstep
    subst hstep
    exact ⟨⟨_, _, rfl, hN⟩, fun d hd => by cases hd⟩

theorem run_inherit (N : Nat) (ops : List Op) : ∀ (m m2 : StateManager),
    (∃ top rest, m.scopes = top :: rest ∧ N ≤ top.maxUsedSymbol) →
    run m ops = some m2 → noScopePopped m ops = true →
    (∀ e, Op.pushEmpty e ∉ ops) →
    ∀ y, Op.add y ∈ ops →
      ∃ v, N ≤ v ∧ mapFind m2.declarations y.canonicalDecl = some v := by
  induction ops with
  | nil => intro m m2 _ _ _ _ y hy; simp at hy
  | cons op ops ih =>
    intro m m2 hm hrun hpop hkind y hy
    obtain ⟨top, rest, hs, hN⟩ := hm
    obtain ⟨m1, h1, h2⟩ := run_cons m m2 op ops hrun
    obtain ⟨top', rest', m1', hs', h1', hpos, hpop1⟩ := noScopePopped_cons m op ops hpop
    rw [h1] at h1'
    cases h1'
    rw [hs] at hs'
    cases hs'
    obtain ⟨hm1, hadd⟩ := step_inherit N m m1 op top rest hs hN hpos h1
      (fun e he => hkind e (by rw [← he]; exact List.mem_cons_self _ _))
    have hkind1 : ∀ e, Op.pushEmpty e ∉ ops :=
      fun e he => hkind e (List.mem_cons_of_mem _ he)
    by_cases hlater : ∃ d, Op.add d ∈ ops ∧ d.canonicalDecl = y.canonicalDecl
    · obtain ⟨d, hd, hdy⟩ := hlater
      rw [← hdy]
      exact ih m1 m2 hm1 h2 hpop1 hkind1 d hd
    · have hnot : ∀ d, Op.add d ∈ ops → d.canonicalDecl ≠ y.canonicalDecl :=
        fun d hd he => hlater ⟨d, hd, he⟩
      have hy' : op = Op.add y := by
        rcases List.mem_cons.mp hy with h | h
        · exact h.symm
        · exact absurd rfl (hnot y h)
      obtain ⟨v, hv1, hv2⟩ := hadd y hy'
      exact ⟨v, hv1, by rw [run_declarations ops m1 m2 _ h2 hnot]; exact hv2⟩

theorem toSymbol_zero : toSymbol 0 = some (1, "a") := by decide

theorem toSymbol_one : toSymbol 1 = some (2, "b") := by decide

/-! ## The claims -/

/-- C1: for every index `i`, `toSymbol i` returns, and the name it returns is
not one of the reserved words in `keywords`. -/
theorem toSymbol_name_not_keyword (i : Nat) :
    ∃ next name, toSymbol i = some (next, name) ∧ name ∉ keywords := by
  obtain ⟨k, _, _, h3, h4⟩ := toSymbol_spec i
  exact ⟨k + 1, render k, h3, h4⟩

/-- C6: for all indices `i ≤ j`, `toSymbol` returns on both and the name for `i`
is at most as long as the name for `j`. -/
theorem toSymbol_length_monotone (i j : Nat) (hij : i ≤ j) :
    ∃ ni si nj sj, toSymbol i = some (ni, si) ∧ toSymbol j = some (nj, sj) ∧
      si.length ≤ sj.length := by
  obtain ⟨ki, hi1, hi2, hi3, _⟩ := toSymbol_spec i
  obtain ⟨kj, hj1, _, hj3, hj4⟩ := toSymbol_spec j
  refine ⟨ki + 1, render ki, kj + 1, render kj, hi3, hj3, ?_⟩
  rw [render_length, render_length]
  apply digitsOf_length_mono
  by_cases hk : ki = i
  · omega
  · by_cases hlt : i = j
    · subst hlt
      rw [hi3] at hj3
      simp only [Option.some.injEq, Prod.mk.injEq] at hj3
      omega
    · omega

/-- Witness for C6 at the last one-letter index and the first two-letter one. -/
theorem toSymbol_length_monotone_witness :
    51 ≤ 52 ∧ ∃ ni si nj sj, toSymbol 51 = some (ni, si) ∧ toSymbol 52 = some (nj, sj) ∧
      si.length ≤ sj.length :=
  ⟨by decide, toSymbol_length_monotone 51 52 (by decide)⟩

/-- C3, as stated, fails: on the stack the constructor builds for a file that
ends at 10, `adjustScopes` at position 11 pops the file-level scope too and
then reads `back()` of the empty vector, so no non-empty stack with the
original bottom scope is left. -/
theorem adjustScopes_pops_bottom_scope :
    adjustScopes (StateManager.init 10).scopes 11 = none ∧
    ¬ ∃ result, adjustScopes (StateManager.init 10).scopes 11 = some result ∧
        result ≠ [] ∧ result.getLast? = (StateManager.init 10).scopes.getLast? := by
  constructor
  · decide
  · rintro ⟨result, h, _⟩
    simp [StateManager.init, adjustScopes] at h

/-- C3, amended: when some scope on the stack ends at or after the position (in
particular when the position is not after the end of the bottom scope),
`adjustScopes` returns a non-empty stack whose bottom element is the original
bottom scope. -/
theorem adjustScopes_keeps_bottom_scope (scopes : List Scope) (cur : Nat)
    (h : ∃ s ∈ scopes, cur ≤ s.endLoc) :
    ∃ result, adjustScopes scopes cur = some result ∧ result ≠ [] ∧
      result.getLast? = scopes.getLast? :=
  adjustScopes_defined scopes cur h

/-- Witness for the amended C3: a position inside the file, after the end of
the inner scope. -/
theorem adjustScopes_keeps_bottom_scope_witness :
    ∃ result, adjustScopes [⟨5, 3⟩, ⟨10, 1⟩] 7 = some result ∧ result ≠ [] ∧
      result.getLast? = [(⟨5, 3⟩ : Scope), ⟨10, 1⟩].getLast? :=
  adjustScopes_keeps_bottom_scope [⟨5, 3⟩, ⟨10, 1⟩] 7 ⟨⟨10, 1⟩, by decide, by decide⟩

/-- C4: when the declarations map has no entry for the canonical declaration
of `decl`, `getSymbol` returns exactly `original` and the state is unchanged. -/
theorem getSymbol_fallback (m : StateManager) (decl : Decl) (original : String)
    (h : mapFind m.declarations decl.canonicalDecl = none) :
    getSymbol m decl original = some (original, m) := by
  simp [getSymbol, h]

/-- Witness for C4: a tracker that knows declaration 1 is asked for
declaration 2. -/
theorem getSymbol_fallback_witness :
    mapFind [(1, 0)] 2 = none ∧
    getSymbol ⟨[⟨10, 1⟩], [(1, 0)]⟩ ⟨3, 2⟩ "printf" = some ("printf", ⟨[⟨10, 1⟩], [(1, 0)]⟩) :=
  ⟨by decide, getSymbol_fallback ⟨[⟨10, 1⟩], [(1, 0)]⟩ ⟨3, 2⟩ "printf" (by decide)⟩

/-- C7: on a non-empty stack and for an end position `e` not after the end of
the bottom scope, `pushEmptyScope e` returns with a new top scope that ends at
`e` and has `maxUsedSymbol = 0`, whatever the counters below it, and the next
two `addSymbol` calls at positions not after `e` return `"a"` and then `"b"`. -/
theorem pushEmptyScope_starts_at_zero (m : StateManager) (e : Nat)
    (hne : m.scopes ≠ []) (he : e ≤ bottomEnd m.scopes) :
    ∃ below, adjustScopes m.scopes e = some below ∧
      pushEmptyScope m e =
        some { m with scopes := { endLoc := e, maxUsedSymbol := 0 } :: below } ∧
      ∀ d1 d2 : Decl, d1.location ≤ e → d2.location ≤ e →
        ∃ m1 m2,
          addSymbol { m with scopes := { endLoc := e, maxUsedSymbol := 0 } :: below } d1 =
            some ("a", m1) ∧
          addSymbol m1 d2 = some ("b", m2) := by
  obtain ⟨top, rest, h1, _, _, _⟩ := adjustScopes_of_le_bottom m.scopes e hne he
  refine ⟨top :: rest, h1, by simp [pushEmptyScope, h1], ?_⟩
  intro d1 d2 hd1 hd2
  exact ⟨_, _,
    addSymbol_on_top _ d1 ⟨e, 0⟩ (top :: rest) 1 "a" rfl hd1 toSymbol_zero,
    addSymbol_on_top _ d2 ⟨e, 1⟩ (top :: rest) 2 "b" rfl hd2 toSymbol_one⟩

/-- Witness for C7: a fresh scope pushed while the enclosing counter is 7. -/
theorem pushEmptyScope_starts_at_zero_witness :
    ([(⟨100, 7⟩ : Scope)] ≠ [] ∧ 50 ≤ bottomEnd [⟨100, 7⟩]) ∧
    ∃ below, adjustScopes [⟨100, 7⟩] 50 = some below ∧
      pushEmptyScope ⟨[⟨100, 7⟩], []⟩ 50 = some ⟨⟨50, 0⟩ :: below, []⟩ ∧
      ∀ d1 d2 : Decl, d1.location ≤ 50 → d2.location ≤ 50 →
        ∃ m1 m2, addSymbol ⟨⟨50, 0⟩ :: below, []⟩ d1 = some ("a", m1) ∧
          addSymbol m1 d2 = some ("b", m2) :=
  ⟨⟨by decide, by decide⟩,
    pushEmptyScope_starts_at_zero ⟨[⟨100, 7⟩], []⟩ 50 (by decide) (by decide)⟩

/-- C8: on a non-empty stack and for an end position `e` not after the end of
the bottom scope, `pushCurScope e` returns; the new top scope ends at `e` and
has the `maxUsedSymbol` of the scope that is on top once `adjustScopes e` has
run, and the stack `adjustScopes e` leaves lies unchanged beneath it. -/
theorem pushCurScope_copies_counter (m : StateManager) (e : Nat)
    (hne : m.scopes ≠ []) (he : e ≤ bottomEnd m.scopes) :
    ∃ top rest, adjustScopes m.scopes e = some (top :: rest) ∧
      pushCurScope m e =
        some { m with scopes :=
          { endLoc := e, maxUsedSymbol := top.maxUsedSymbol } :: top :: rest } := by
  obtain ⟨top, rest, h1, _, _, _⟩ := adjustScopes_of_le_bottom m.scopes e hne he
  exact ⟨top, rest, h1, by simp [pushCurScope, h1]⟩

/-- Witness for C8: the inner scope has ended at 20, the enclosing counter is 4. -/
theorem pushCurScope_copies_counter_witness :
    ([(⟨20, 9⟩ : Scope), ⟨100, 4⟩] ≠ [] ∧ 50 ≤ bottomEnd [⟨20, 9⟩, ⟨100, 4⟩]) ∧
    ∃ top rest, adjustScopes [⟨20, 9⟩, ⟨100, 4⟩] 50 = some (top :: rest) ∧
      pushCurScope ⟨[⟨20, 9⟩, ⟨100, 4⟩], []⟩ 50 =
        some ⟨⟨50, top.maxUsedSymbol⟩ :: top :: rest, []⟩ :=
  ⟨⟨by decide, by decide⟩,
    pushCurScope_copies_counter ⟨[⟨20, 9⟩, ⟨100, 4⟩], []⟩ 50 (by decide) (by decide)⟩

/-- C2: if `addSymbol` returns the name `n` for `decl`, then after any further
run of `addSymbol` / `pushEmptyScope` / `pushCurScope` calls that does not
register the same canonical declaration again (the empty run included),
`getSymbol` for that canonical declaration returns exactly `n`, whatever
`original` is, and leaves the state as it is. -/
theorem getSymbol_after_addSymbol (m m1 m2 : StateManager) (decl : Decl) (n : String)
    (ops : List Op)
    (hadd : addSymbol m decl = some (n, m1))
    (hrun : run m1 ops = some m2)
    (hother : ∀ d, Op.add d ∈ ops → d.canonicalDecl ≠ decl.canonicalDecl) :
    ∀ (ref : Decl) (original : String), ref.canonicalDecl = decl.canonicalDecl →
      getSymbol m2 ref original = some (n, m2) := by
  intro ref original href
  obtain ⟨top, rest, k, _, _, hk, hn, hm1⟩ := addSymbol_spec m decl n m1 hadd
  have hfind : mapFind m2.declarations ref.canonicalDecl = some top.maxUsedSymbol := by
    rw [href, run_declarations ops m1 m2 _ hrun hother, hm1]
    exact mapFind_mapAssign_same _ _ _
  rw [hn]
  exact getSymbol_found m2 ref original _ k hfind hk

/-- Witness for C2: a variable registered at file level, then a struct scope
with a member, then a block; the variable is still `a`. -/
theorem getSymbol_after_addSymbol_witness :
    (addSymbol (StateManager.init 100) ⟨5, 1⟩ = some ("a", ⟨[⟨100, 1⟩], [(1, 0)]⟩) ∧
     run ⟨[⟨100, 1⟩], [(1, 0)]⟩ [Op.pushEmpty 20, Op.add ⟨12, 2⟩, Op.pushCur 60] =
       some ⟨[⟨60, 1⟩, ⟨100, 1⟩], [(2, 0), (1, 0)]⟩) ∧
    ∀ (ref : Decl) (original : String), ref.canonicalDecl = 1 →
      getSymbol ⟨[⟨60, 1⟩, ⟨100, 1⟩], [(2, 0), (1, 0)]⟩ ref original =
        some ("a", ⟨[⟨60, 1⟩, ⟨100, 1⟩], [(2, 0), (1, 0)]⟩) :=
  ⟨⟨by decide, by decide⟩,
    getSymbol_after_addSymbol (StateManager.init 100) ⟨[⟨100, 1⟩], [(1, 0)]⟩
      ⟨[⟨60, 1⟩, ⟨100, 1⟩], [(2, 0), (1, 0)]⟩ ⟨5, 1⟩ "a"
      [Op.pushEmpty 20, Op.add ⟨12, 2⟩, Op.pushCur 60] (by decide) (by decide) (by simp)⟩

/-- C9: if `addSymbol` is called for a declaration and, after any run of further
calls, called again for the same canonical declaration, then the second call
finds an entry of that canonical declaration in the map, afterwards `getSymbol`
returns the name the second call returned, and the declarations map holds
exactly one entry for that canonical declaration, whose index is the
`maxUsedSymbol` the top scope had when the second call read it. -/
theorem addSymbol_last_registration_wins (m0 m1 m1' m2 : StateManager) (d1 d2 : Decl)
    (n1 n2 : String) (ops : List Op)
    (hfirst : addSymbol m0 d1 = some (n1, m1))
    (hrun : run m1 ops = some m1')
    (hsecond : addSymbol m1' d2 = some (n2, m2))
    (hsame : d1.canonicalDecl = d2.canonicalDecl) :
    mapFind m1'.declarations d1.canonicalDecl ≠ none ∧
    (∀ (ref : Decl) (original : String), ref.canonicalDecl = d1.canonicalDecl →
      getSymbol m2 ref original = some (n2, m2)) ∧
    ∃ top rest, adjustScopes m1'.scopes d2.location = some (top :: rest) ∧
      m2.declarations.filter (fun e => e.1 = d1.canonicalDecl) =
        [(d1.canonicalDecl, top.maxUsedSymbol)] := by
  obtain ⟨top, rest, k, hadj, _, hk, hn, hm2⟩ := addSymbol_spec m1' d2 n2 m2 hsecond
  refine ⟨?_, ?_, ?_⟩
  · apply run_keeps_entry ops m1 m1' _ hrun
    obtain ⟨_, _, _, _, _, _, _, hm1⟩ := addSymbol_spec m0 d1 n1 m1 hfirst
    rw [hm1]
    simp [mapFind_mapAssign_same]
  · intro ref original href
    have hfind : mapFind m2.declarations ref.canonicalDecl = some top.maxUsedSymbol := by
      rw [href, hsame, hm2]
      exact mapFind_mapAssign_same _ _ _
    rw [hn]
    exact getSymbol_found m2 ref original _ k hfind hk
  · refine ⟨top, rest, hadj, ?_⟩
    rw [hsame, hm2]
    exact mapAssign_entries _ _ _

/-- Witness for C9: a declaration named `a` at file level is registered again
after another declaration took `b`; it is `c` from then on. -/
theorem addSymbol_last_registration_wins_witness :
    (addSymbol (StateManager.init 100) ⟨5, 1⟩ = some ("a", ⟨[⟨100, 1⟩], [(1, 0)]⟩) ∧
     run ⟨[⟨100, 1⟩], [(1, 0)]⟩ [Op.add ⟨8, 2⟩] = some ⟨[⟨100, 2⟩], [(2, 1), (1, 0)]⟩ ∧
     addSymbol ⟨[⟨100, 2⟩], [(2, 1), (1, 0)]⟩ ⟨30, 1⟩ =
       some ("c", ⟨[⟨100, 3⟩], [(1, 2), (2, 1)]⟩)) ∧
    (mapFind [(2, 1), (1, 0)] 1 ≠ none ∧
     (∀ (ref : Decl) (original : String), ref.canonicalDecl = 1 →
      getSymbol ⟨[⟨100, 3⟩], [(1, 2), (2, 1)]⟩ ref original =
        some ("c", ⟨[⟨100, 3⟩], [(1, 2), (2, 1)]⟩)) ∧
     ∃ top rest, adjustScopes [⟨100, 2⟩] 30 = some (top :: rest) ∧
      [((1 : Nat), (2 : Nat)), (2, 1)].filter (fun e => e.1 = 1) =
        [(1, top.maxUsedSymbol)]) :=
  ⟨⟨by decide, by decide, by decide⟩,
    addSymbol_last_registration_wins (StateManager.init 100) ⟨[⟨100, 1⟩], [(1, 0)]⟩
      ⟨[⟨100, 2⟩], [(2, 1), (1, 0)]⟩ ⟨[⟨100, 3⟩], [(1, 2), (2, 1)]⟩ ⟨5, 1⟩ ⟨30, 1⟩
      "a" "c" [Op.add ⟨8, 2⟩] (by decide) (by decide) (by decide) (by decide)⟩

/-- C10: from the state the constructor builds, every run of `addSymbol`,
`pushEmptyScope` and `pushCurScope` calls whose positions do not exceed the end
of the bottom scope returns, and after each of its operations (and before the
first) the end boundaries on the stack do not increase from bottom to top. -/
theorem scope_stack_ends_ordered (endOfFile : Nat) (ops : List Op)
    (hpos : ∀ op ∈ ops, op.position ≤ endOfFile) :
    ∀ done, done <+: ops →
      ∃ m, run (StateManager.init endOfFile) done = some m ∧ endsOrdered m.scopes ∧
        bottomEnd m.scopes = endOfFile := by
  intro done hdone
  obtain ⟨m, h1, _, h3, h4⟩ := run_ordered done (StateManager.init endOfFile)
    (by simp [StateManager.init])
    (by simp [StateManager.init, endsOrdered])
    (fun op hop => by
      have := hpos op (hdone.subset hop)
      simpa [StateManager.init, bottomEnd] using this)
  exact ⟨m, h1, h3, by simpa [StateManager.init, bottomEnd] using h4⟩

/-- Witness for C10: a global, a function with a block, then another global
after the function has ended. -/
theorem scope_stack_ends_ordered_witness :
    (∀ op ∈ [Op.add ⟨5, 1⟩, Op.pushCur 60, Op.pushEmpty 40, Op.add ⟨70, 2⟩],
      op.position ≤ 100) ∧
    ∀ done, done <+: [Op.add ⟨5, 1⟩, Op.pushCur 60, Op.pushEmpty 40, Op.add ⟨70, 2⟩] →
      ∃ m, run (StateManager.init 100) done = some m ∧ endsOrdered m.scopes ∧
        bottomEnd m.scopes = 100 :=
  ⟨by decide,
    scope_stack_ends_ordered 100
      [Op.add ⟨5, 1⟩, Op.pushCur 60, Op.pushEmpty 40, Op.add ⟨70, 2⟩] (by decide)⟩

/-- C5: after `x` is registered with `addSymbol`, along any run of `addSymbol`
calls on other canonical declarations and `pushCurScope` calls during which no
scope is popped, every declaration `y` registered in that run gets from
`getSymbol` a name different from the one `getSymbol` gives for `x`, which is
the name `addSymbol` returned for `x`. -/
theorem inherited_scopes_no_collision (m m1 m2 : StateManager) (x : Decl) (nx : String)
    (ops : List Op)
    (hx : addSymbol m x = some (nx, m1))
    (hrun : run m1 ops = some m2)
    (hpop : noScopePopped m1 ops = true)
    (hkind : ∀ e, Op.pushEmpty e ∉ ops)
    (hother : ∀ d, Op.add d ∈ ops → d.canonicalDecl ≠ x.canonicalDecl) :
    ∀ y, Op.add y ∈ ops → ∀ ox oy : String,
      ∃ ny, getSymbol m2 x ox = some (nx, m2) ∧ getSymbol m2 y oy = some (ny, m2) ∧
        ny ≠ nx := by
  intro y hy ox oy
  obtain ⟨top, rest, k, _, _, hk, hn, hm1⟩ := addSymbol_spec m x nx m1 hx
  have hfindx : mapFind m2.declarations x.canonicalDecl = some top.maxUsedSymbol := by
    rw [run_declarations ops m1 m2 _ hrun hother, hm1]
    exact mapFind_mapAssign_same _ _ _
  obtain ⟨v, hv1, hv2⟩ := run_inherit (k + 1) ops m1 m2
    ⟨_, rest, by rw [hm1], le_refl _⟩ hrun hpop hkind y hy
  obtain ⟨kv, hkv1, _, hkv3, _⟩ := toSymbol_spec v
  refine ⟨render kv, ?_, getSymbol_found m2 y oy v kv hv2 hkv3, ?_⟩
  · rw [hn]
    exact getSymbol_found m2 x ox _ k hfindx hk
  · rw [hn]
    intro heq
    have := render_injective _ _ heq
    omega

/-- Witness for C5: a global `x`, then a function with a parameter and a local
in a nested block. -/
theorem inherited_scopes_no_collision_witness :
    (addSymbol (StateManager.init 100) ⟨5, 1⟩ = some ("a", ⟨[⟨100, 1⟩], [(1, 0)]⟩) ∧
     run ⟨[⟨100, 1⟩], [(1, 0)]⟩ [Op.pushCur 60, Op.add ⟨12, 2⟩, Op.pushCur 50, Op.add ⟨20, 3⟩] =
       some ⟨[⟨50, 3⟩, ⟨60, 2⟩, ⟨100, 1⟩], [(3, 2), (2, 1), (1, 0)]⟩ ∧
     noScopePopped ⟨[⟨100, 1⟩], [(1, 0)]⟩
       [Op.pushCur 60, Op.add ⟨12, 2⟩, Op.pushCur 50, Op.add ⟨20, 3⟩] = true) ∧
    ∀ y, Op.add y ∈ [Op.pushCur 60, Op.add ⟨12, 2⟩, Op.pushCur 50, Op.add ⟨20, 3⟩] →
      ∀ ox oy : String,
      ∃ ny, getSymbol ⟨[⟨50, 3⟩, ⟨60, 2⟩, ⟨100, 1⟩], [(3, 2), (2, 1), (1, 0)]⟩ ⟨5, 1⟩ ox =
          some ("a", ⟨[⟨50, 3⟩, ⟨60, 2⟩, ⟨100, 1⟩], [(3, 2), (2, 1), (1, 0)]⟩) ∧
        getSymbol ⟨[⟨50, 3⟩, ⟨60, 2⟩, ⟨100, 1⟩], [(3, 2), (2, 1), (1, 0)]⟩ y oy =
          some (ny, ⟨[⟨50, 3⟩, ⟨60, 2⟩, ⟨100, 1⟩], [(3, 2), (2, 1), (1, 0)]⟩) ∧
        ny ≠ "a" :=
  ⟨⟨by decide, by decide, by decide⟩,
    inherited_scopes_no_collision (StateManager.init 100) ⟨[⟨100, 1⟩], [(1, 0)]⟩
      ⟨[⟨50, 3⟩, ⟨60, 2⟩, ⟨100, 1⟩], [(3, 2), (2, 1), (1, 0)]⟩ ⟨5, 1⟩ "a"
      [Op.pushCur 60, Op.add ⟨12, 2⟩, Op.pushCur 50, Op.add ⟨20, 3⟩]
      (by decide) (by decide) (by decide) (by simp) (by simp)⟩

end Minifier
